import Mathlib

/-!
Verification of the graph pipeline of `src/main.py`.

Shallow embedding of the generation / layout / metrics / scene pipeline of the
Porous Metamaterial Designer.  The pipeline in `src/main.py` is:

* `generate_sample_graph(n_nodes, connectivity)` (lines 100-103): builds
  `G = nx.random_geometric_graph(n_nodes, connectivity)` and
  `pos = nx.spring_layout(G, dim=3)`.
* `create_3d_graph(G, pos)` (lines 106-155): flattens the edges into three
  coordinate buffers with a `None` break marker after each edge's two
  endpoints, and the nodes into three coordinate lists.
* metrics (lines 169-173): `np.mean([d for n, d in G.degree()])`,
  `nx.density(G)`, `nx.average_clustering(G)`.

The networkx functions invoked by the source are embedded from their actual
library semantics: `random_geometric_graph` places `n` points in the unit
square `[0,1)^2` (dim=2 default) using a pseudo-random source and joins the
pair `(i, j)` with `i < j` iff the Euclidean distance of their placement points
is at most the radius.  The pseudo-random placement is modelled as an explicit
argument `place : ℕ → ℚ × ℚ`; the distance comparison `dist ≤ r` is expressed
exactly over ℚ as `0 ≤ r ∧ dist² ≤ r²` (equivalent because distances are
nonnegative).  The spring layout (`nx.spring_layout`, Fruchterman-Reingold) is
embedded over ℝ further below, with its random initial placement likewise an
explicit argument.
-/

/-- The two error kinds of the pipeline named by the design document:
`InvalidParameter` for bad generation parameters, `IncompleteLayout` for a
position map that misses a node while building the scene (in the Python source
the latter surfaces as the `KeyError` raised by `pos[...]`). -/
inductive PipelineError where
  | invalidParameter
  | incompleteLayout
deriving DecidableEq

/-- A graph as built by `nx.random_geometric_graph`: nodes are `0 .. n-1`
(`nx.empty_graph(n)` adds `range(n)`), and the edge list records the pairs
added by `G.add_edges_from(...)`, in insertion order. -/
structure Graph where
  n : ℕ
  edges : List (ℕ × ℕ)
deriving DecidableEq

/-- The node list `list(G.nodes())`, i.e. `range(n)`. -/
def Graph.nodes (G : Graph) : List ℕ := List.range G.n

/-- Edge count, `G.number_of_edges()`. -/
def Graph.edgeCount (G : Graph) : ℕ := G.edges.length

/-- Well-formedness invariant satisfied by every graph the pipeline builds:
each stored edge is a pair `(i, j)` with `i < j < n`, and no edge is stored
twice.  (Together these make the graph simple: no self-loops and no parallel
edges, since the reversed copy `(j, i)` of a stored edge can never satisfy
`i < j`.) -/
def Graph.WF (G : Graph) : Prop :=
  G.edges.Nodup ∧ ∀ e ∈ G.edges, e.1 < e.2 ∧ e.2 < G.n

instance (G : Graph) : Decidable G.WF := by
  unfold Graph.WF; infer_instance

/-- Enumeration `itertools.combinations(range(n), 2)`: all pairs `(i, j)` with
`i < j < n`, in lexicographic order.  This is the pair enumeration
`nx.random_geometric_graph` tests edges over (via `_geometric_edges`). -/
def combinations2 (n : ℕ) : List (ℕ × ℕ) :=
  (List.range n).flatMap fun i => ((List.range n).filter fun j => i < j).map fun j => (i, j)

/-- Squared Euclidean distance of two placement points. -/
def sqDist (p q : ℚ × ℚ) : ℚ := (p.1 - q.1) ^ 2 + (p.2 - q.2) ^ 2

/-- The geometric edge test of `nx.random_geometric_graph`:
`dist(p, q) ≤ r`.  Over ℚ it is stated squared: for `r ≥ 0` the test
`dist ≤ r` is equivalent to `dist² ≤ r²`, and for `r < 0` it is false because
distances are nonnegative. -/
def withinRadius (r : ℚ) (p q : ℚ × ℚ) : Bool :=
  decide (0 ≤ r ∧ sqDist p q ≤ r ^ 2)

/-- The edge list built by `nx.random_geometric_graph(n, r)` for the placement
`place`: the pairs `(i, j)`, `i < j`, whose placement points are within
distance `r`. -/
def rggEdges (n : ℕ) (r : ℚ) (place : ℕ → ℚ × ℚ) : List (ℕ × ℕ) :=
  (combinations2 n).filter fun e => withinRadius r (place e.1) (place e.2)

/-- Call `nx.random_geometric_graph(n, r)` with the pseudo-random placement
abstracted as `place`. -/
def random_geometric_graph (n : ℕ) (r : ℚ) (place : ℕ → ℚ × ℚ) : Graph :=
  ⟨n, rggEdges n r place⟩

/-- The neighbour set `set(G[v])`: the adjacency entry that
`G.add_edges_from` builds for `v` (every partner of `v` on either side of a
stored edge). -/
def Graph.nbrs (G : Graph) (v : ℕ) : Finset ℕ :=
  (((G.edges.filter fun e => e.1 = v).map Prod.snd) ++
    ((G.edges.filter fun e => e.2 = v).map Prod.fst)).toFinset

/-- Adjacency `G.has_edge(u, v)`: some stored edge joins `u` and `v`. -/
def Graph.Adj (G : Graph) (u v : ℕ) : Prop :=
  (u, v) ∈ G.edges ∨ (v, u) ∈ G.edges

instance (G : Graph) (u v : ℕ) : Decidable (G.Adj u v) := by
  unfold Graph.Adj; infer_instance

/-- The degree reported by `G.degree()` for `v`:
`len(G.adj[v])` plus one more if `v` has a self-loop. -/
def Graph.degree (G : Graph) (v : ℕ) : ℕ :=
  (G.nbrs v).card + (if v ∈ G.nbrs v then 1 else 0)

/-- Mean `np.mean` of a list of rationals: sum divided by length. -/
def npMean (l : List ℚ) : ℚ := l.sum / l.length

/-- The Average Degree metric of `src/main.py` line 170:
`np.mean([d for n, d in G.degree()])`. -/
def averageDegree (G : Graph) : ℚ :=
  npMean (G.nodes.map fun v => (G.degree v : ℚ))

/-- Density `nx.density(G)` (line 171): `0` when `m = 0` or `n ≤ 1`, otherwise
`m / (n * (n - 1))` doubled because the graph is undirected. -/
def density (G : Graph) : ℚ :=
  if G.edgeCount = 0 ∨ G.n ≤ 1 then 0
  else 2 * ((G.edgeCount : ℚ) / ((G.n : ℚ) * ((G.n : ℚ) - 1)))

/-- The `(d, t)` pair produced for node `v` by networkx's
`_triangles_and_degree_iter` (used by `nx.clustering`):
`d = len(G[v])` and, with `vs = set(G[v]) - {v}`,
`t = sum(len(vs & (set(G[w]) - {w})) for w in vs)` — twice the number of
edges among the neighbours of `v`. -/
def Graph.triangleData (G : Graph) (v : ℕ) : ℕ × ℕ :=
  let vnbrs := G.nbrs v
  let vs := vnbrs.erase v
  (vnbrs.card, ∑ w ∈ vs, (vs ∩ ((G.nbrs w).erase w)).card)

/-- The local clustering coefficient computed by `nx.clustering` for `v`:
`0 if t == 0 else t / (d * (d - 1))`. -/
def localClustering (G : Graph) (v : ℕ) : ℚ :=
  let d := (G.triangleData v).1
  let t := (G.triangleData v).2
  if t = 0 then 0 else (t : ℚ) / ((d : ℚ) * ((d : ℚ) - 1))

/-- Metric `nx.average_clustering(G)` (line 172): the mean of the local clustering
coefficients over all nodes. -/
def average_clustering (G : Graph) : ℚ :=
  npMean (G.nodes.map fun v => localClustering G v)

/-- The figure data assembled by `create_3d_graph`: the three flattened edge
coordinate buffers of the `edge_trace` (entries are `some x` for a coordinate
and `none` for the `None` break marker appended after each edge) and the three
node coordinate lists of the `node_trace`.  The coordinate type is left
polymorphic: Python is untyped here and the buffers merely collect whatever
the position map stores. -/
structure Scene (α : Type) where
  edge_x : List (Option α)
  edge_y : List (Option α)
  edge_z : List (Option α)
  node_x : List α
  node_y : List α
  node_z : List α
deriving DecidableEq

/-- The edge loop of `create_3d_graph` (lines 110-115): for each edge look up
both endpoint positions (a missing key aborts the whole call, as the Python
`KeyError` would) and extend each buffer with the two coordinates followed by
the `None` break marker. -/
def buildEdgeBuffers {α : Type} (pos : ℕ → Option (α × α × α)) :
    List (ℕ × ℕ) → Except PipelineError (List (Option α) × List (Option α) × List (Option α))
  | [] => .ok ([], [], [])
  | e :: rest =>
    match pos e.1, pos e.2 with
    | some (x0, y0, z0), some (x1, y1, z1) =>
      match buildEdgeBuffers pos rest with
      | .ok (xs, ys, zs) =>
        .ok (some x0 :: some x1 :: none :: xs,
             some y0 :: some y1 :: none :: ys,
             some z0 :: some z1 :: none :: zs)
      | .error err => .error err
    | _, _ => .error .incompleteLayout

/-- The node loop of `create_3d_graph` (lines 127-131): for each node look up
its position (again a missing key aborts the call) and append the three
coordinates to the node lists. -/
def buildNodeBuffers {α : Type} (pos : ℕ → Option (α × α × α)) :
    List ℕ → Except PipelineError (List α × List α × List α)
  | [] => .ok ([], [], [])
  | v :: rest =>
    match pos v with
    | some (x, y, z) =>
      match buildNodeBuffers pos rest with
      | .ok (xs, ys, zs) => .ok (x :: xs, y :: ys, z :: zs)
      | .error err => .error err
    | none => .error .incompleteLayout

/-- Function `create_3d_graph(G, pos)` (lines 106-155): build the edge buffers over
`G.edges()`, the node buffers over `G.nodes()`, and assemble the scene.  The
function is deterministic by construction — unlike the generator and the
layout it takes no random-source argument. -/
def create_3d_graph {α : Type} (G : Graph) (pos : ℕ → Option (α × α × α)) :
    Except PipelineError (Scene α) :=
  match buildEdgeBuffers pos G.edges with
  | .error err => .error err
  | .ok (ex, ey, ez) =>
    match buildNodeBuffers pos G.nodes with
    | .error err => .error err
    | .ok (nx0, ny0, nz0) => .ok ⟨ex, ey, ez, nx0, ny0, nz0⟩

/-- Split a flattened coordinate buffer at its `none` break markers into the
polylines a plotly `lines`-mode trace draws: each maximal run of consecutive
`some` entries is one polyline (runs separated or terminated by `none` never
connect). -/
def polylineRuns {α : Type} : List (Option α) → List (List α)
  | [] => []
  | none :: rest => [] :: polylineRuns rest
  | some a :: rest =>
    match polylineRuns rest with
    | [] => [[a]]
    | c :: cs => (a :: c) :: cs

/-!
## The layout: `nx.spring_layout(G, dim=3)`

Embedded from networkx's `spring_layout` / `_fruchterman_reingold` as invoked
by `generate_sample_graph` with all defaults except `dim=3`:
`k=None`, `pos=None`, `fixed=None`, `iterations=50`, `threshold=1e-4`,
`weight="weight"` (every edge weight is 1), `scale=1`, `center=None` (zeros).
The random initial placement `seed.rand(n, dim)` is abstracted as an explicit
argument `init : ℕ → ℝ × ℝ × ℝ`.  Real (not floating-point) arithmetic is
used; the floating-point rounding itself is not modelled.
-/

noncomputable section
open Classical

/-- Componentwise sum of two 3-vectors. -/
def add3 (p q : ℝ × ℝ × ℝ) : ℝ × ℝ × ℝ := (p.1 + q.1, p.2.1 + q.2.1, p.2.2 + q.2.2)

/-- Componentwise difference of two 3-vectors. -/
def sub3 (p q : ℝ × ℝ × ℝ) : ℝ × ℝ × ℝ := (p.1 - q.1, p.2.1 - q.2.1, p.2.2 - q.2.2)

/-- Scalar multiple of a 3-vector. -/
def smul3 (c : ℝ) (p : ℝ × ℝ × ℝ) : ℝ × ℝ × ℝ := (c * p.1, c * p.2.1, c * p.2.2)

/-- Sum of squared components of a 3-vector. -/
def sq3 (p : ℝ × ℝ × ℝ) : ℝ := p.1 ^ 2 + p.2.1 ^ 2 + p.2.2 ^ 2

/-- Euclidean norm of a 3-vector (`np.linalg.norm(..., axis=-1)`). -/
def norm3 (p : ℝ × ℝ × ℝ) : ℝ := Real.sqrt (sq3 p)

/-- Maximum `np.max` over a list (`0` on the empty list, which never occurs: the
iterative branch runs only for `n ≥ 2`). -/
def npMaxR : List ℝ → ℝ
  | [] => 0
  | x :: xs => xs.foldl max x

/-- Minimum `np.min` over a list (same convention). -/
def npMinR : List ℝ → ℝ
  | [] => 0
  | x :: xs => xs.foldl min x

/-- The entry `A[i][j]` of `nx.to_numpy_array(G, weight="weight")`: 1 when the
graph joins `i` and `j`, else 0. -/
def adjWeight (G : Graph) (i j : ℕ) : ℝ := if G.Adj i j then 1 else 0

/-- The optimal distance `k = np.sqrt(1.0 / nnodes)` chosen by
`_fruchterman_reingold` when `k is None`. -/
def frK (n : ℕ) : ℝ := Real.sqrt (1 / n)

/-- The pairwise distance matrix after `np.clip(distance, 0.01, None)`:
the Euclidean distance of the two current positions, raised to at least
`0.01`.  This clipped value is the only divisor formed from node positions, so
it keeps every division of the iteration away from a zero denominator. -/
def clippedDist (p : ℕ → ℝ × ℝ × ℝ) (i j : ℕ) : ℝ :=
  max (norm3 (sub3 (p i) (p j))) 0.01

/-- Row `i` of `displacement = np.einsum("ijk,ij->ik", delta, (k*k/distance**2 - A*distance/k))`. -/
def frDisplacement (G : Graph) (k : ℝ) (p : ℕ → ℝ × ℝ × ℝ) (i : ℕ) : ℝ × ℝ × ℝ :=
  ∑ j ∈ Finset.range G.n,
    smul3 (k * k / clippedDist p i j ^ 2 - adjWeight G i j * clippedDist p i j / k)
      (sub3 (p i) (p j))

/-- Guard `np.where(length < 0.01, 0.1, length)`: the displacement length with tiny
values replaced by `0.1`, the divisor of the step normalisation.  Applied to a
(nonnegative) norm it is always at least `0.01`. -/
def whereLength (l : ℝ) : ℝ := if l < 0.01 then 0.1 else l

/-- Row `i` of `delta_pos = np.einsum("ij,i->ij", displacement, t / length)`. -/
def frDeltaPos (G : Graph) (k t : ℝ) (p : ℕ → ℝ × ℝ × ℝ) (i : ℕ) : ℝ × ℝ × ℝ :=
  smul3 (t / whereLength (norm3 (frDisplacement G k p i))) (frDisplacement G k p i)

/-- The convergence measure `err = np.linalg.norm(delta_pos) / nnodes`
(Frobenius norm of the whole `n × 3` step matrix over the node count). -/
def frErr (G : Graph) (k t : ℝ) (p : ℕ → ℝ × ℝ × ℝ) : ℝ :=
  Real.sqrt (∑ i ∈ Finset.range G.n, sq3 (frDeltaPos G k t p i)) / G.n

/-- The `for iteration in range(iterations)` loop of `_fruchterman_reingold`:
apply the step, cool the temperature by `dt`, and break early once
`err < threshold` (`1e-4`). -/
def frLoop (G : Graph) (k dt : ℝ) : ℕ → ℝ → (ℕ → ℝ × ℝ × ℝ) → (ℕ → ℝ × ℝ × ℝ)
  | 0, _, p => p
  | iter + 1, t, p =>
    let newp := fun i => add3 (p i) (frDeltaPos G k t p i)
    if frErr G k t p < 0.0001 then newp else frLoop G k dt iter (t - dt) newp

/-- The initial temperature
`t = max(max(pos.T[0]) - min(pos.T[0]), max(pos.T[1]) - min(pos.T[1])) * 0.1`
(only the first two coordinate columns of the initial placement are used). -/
def frT0 (G : Graph) (init : ℕ → ℝ × ℝ × ℝ) : ℝ :=
  max (npMaxR (G.nodes.map fun i => (init i).1) - npMinR (G.nodes.map fun i => (init i).1))
    (npMaxR (G.nodes.map fun i => (init i).2.1) - npMinR (G.nodes.map fun i => (init i).2.1))
    * 0.1

/-- Call `_fruchterman_reingold(A, k=None, pos=seed.rand(n, 3), iterations=50,
threshold=1e-4, dim=3)`: 50 cooling iterations from the random initial
placement, with `dt = t / (iterations + 1)`. -/
def fruchterman_reingold (G : Graph) (init : ℕ → ℝ × ℝ × ℝ) : ℕ → ℝ × ℝ × ℝ :=
  frLoop G (frK G.n) (frT0 G init / 51) 50 (frT0 G init) init

/-- Mean of one coordinate column over the nodes (`pos[:, i].mean()`). -/
def coordMean (G : Graph) (f : ℕ → ℝ) : ℝ := (G.nodes.map f).sum / G.n

/-- Function `rescale_layout(pos, scale=1)`: subtract each column's mean, take
`lim` = the largest absolute coordinate over all three columns (starting from
`lim = 0`), and scale by `1 / lim` when `lim > 0`. -/
def rescale_layout (G : Graph) (p : ℕ → ℝ × ℝ × ℝ) : ℕ → ℝ × ℝ × ℝ :=
  let centered := fun i =>
    sub3 (p i) (coordMean G (fun j => (p j).1), coordMean G (fun j => (p j).2.1),
      coordMean G (fun j => (p j).2.2))
  let lim :=
    max (max (max 0 (npMaxR (G.nodes.map fun i => |(centered i).1|)))
      (npMaxR (G.nodes.map fun i => |(centered i).2.1|)))
      (npMaxR (G.nodes.map fun i => |(centered i).2.2|))
  if 0 < lim then fun i => smul3 (1 / lim) (centered i) else centered

/-- Layout `nx.spring_layout(G, dim=3)` as called on line 102: an empty graph gives
the empty mapping, a single node sits at the centre `(0,0,0)`, and otherwise
the Fruchterman-Reingold iteration runs, is rescaled, is offset by the zero
centre, and is zipped with the node list into a mapping defined exactly on the
nodes. -/
def spring_layout (G : Graph) (init : ℕ → ℝ × ℝ × ℝ) : ℕ → Option (ℝ × ℝ × ℝ) :=
  if G.n = 0 then fun _ => none
  else if G.n = 1 then fun v => if v = 0 then some (0, 0, 0) else none
  else fun v =>
    if v < G.n then some (add3 (rescale_layout G (fruchterman_reingold G init) v) (0, 0, 0))
    else none

end

/-- Function `generate_sample_graph(n_nodes, connectivity)` (lines 100-103).  The node
count is taken as an arbitrary integer (the UI slider restricts it to 12-60,
but the function itself accepts anything): `nx.empty_graph` adds the nodes
`range(n_nodes)`, which is empty for a non-positive count, and no parameter
validation of any kind is performed.  The two pseudo-random sources (the
generator's 2-D placement and the layout's 3-D initial placement) are explicit
arguments. -/
noncomputable def generate_sample_graph (n_nodes : ℤ) (connectivity : ℚ)
    (place : ℕ → ℚ × ℚ) (init : ℕ → ℝ × ℝ × ℝ) :
    Graph × (ℕ → Option (ℝ × ℝ × ℝ)) :=
  let G := random_geometric_graph n_nodes.toNat connectivity place
  (G, spring_layout G init)

/-- The pipeline boundary with its error channel made explicit: the Python
body of `generate_sample_graph` contains no validation and no `raise`, so the
faithful embedding always returns `ok`. -/
noncomputable def generate_sample_graphE (n_nodes : ℤ) (connectivity : ℚ)
    (place : ℕ → ℚ × ℚ) (init : ℕ → ℝ × ℝ × ℝ) :
    Except PipelineError (Graph × (ℕ → Option (ℝ × ℝ × ℝ))) :=
  .ok (generate_sample_graph n_nodes connectivity place init)

/-- The notion of degree used by the design document: the number of stored
edges incident to `v`. -/
def incidentCount (G : Graph) (v : ℕ) : ℕ :=
  G.edges.countP fun e => e.1 = v ∨ e.2 = v

/-- Modelled from the spec's wording for the claim comparison: the unordered
pairs of distinct neighbours of `v`. -/
def neighborPairs (G : Graph) (v : ℕ) : Finset (ℕ × ℕ) :=
  ((G.nbrs v) ×ˢ (G.nbrs v)).filter fun p => p.1 < p.2

/-- Modelled from the spec's wording: the local clustering coefficient as "the
fraction of the node's neighbor-pairs that are themselves connected", with a
node of degree < 2 contributing 0. -/
def specLocalClustering (G : Graph) (v : ℕ) : ℚ :=
  if (G.nbrs v).card < 2 then 0
  else (((neighborPairs G v).filter fun p => G.Adj p.1 p.2).card : ℚ) /
    ((neighborPairs G v).card : ℚ)

/-- Concrete placement source used by the closed witness instances: every
node at the origin of the unit square. -/
def place0 : ℕ → ℚ × ℚ := fun _ => (0, 0)

/-- Concrete layout initialisation used by the closed witness instances. -/
noncomputable def init0 : ℕ → ℝ × ℝ × ℝ := fun _ => (0, 0, 0)

/-- Concrete placement source with pairwise distinct points. -/
def placeDistinct : ℕ → ℚ × ℚ := fun i => ((i : ℚ), 0)

/-!
## Basic facts about the generated edge list
-/

theorem mem_combinations2 {n : ℕ} {e : ℕ × ℕ} :
    e ∈ combinations2 n ↔ e.1 < e.2 ∧ e.2 < n := by
  obtain ⟨i, j⟩ := e
  simp only [combinations2, List.mem_flatMap, List.mem_map, List.mem_filter, List.mem_range,
    decide_eq_true_eq, Prod.mk.injEq]
  constructor
  · rintro ⟨a, _, b, ⟨hb, hab⟩, rfl, rfl⟩
    exact ⟨hab, hb⟩
  · rintro ⟨hij, hj⟩
    exact ⟨i, lt_trans hij hj, j, ⟨hj, hij⟩, rfl, rfl⟩

theorem nodup_combinations2 (n : ℕ) : (combinations2 n).Nodup := by
  unfold combinations2
  rw [List.nodup_flatMap]
  constructor
  · intro i _
    exact ((List.nodup_range n).filter _).map fun a b h => congrArg Prod.snd h
  · have hp : (List.range n).Pairwise (· < ·) := List.pairwise_lt_range n
    refine hp.imp ?_
    intro a b hab x hxa hxb
    simp only [List.mem_map] at hxa hxb
    obtain ⟨ja, _, rfl⟩ := hxa
    obtain ⟨jb, _, h⟩ := hxb
    exact absurd (congrArg Prod.fst h).symm (Nat.ne_of_lt hab)

theorem mem_rggEdges {n : ℕ} {r : ℚ} {place : ℕ → ℚ × ℚ} {e : ℕ × ℕ} :
    e ∈ rggEdges n r place ↔
      (e.1 < e.2 ∧ e.2 < n) ∧ (0 ≤ r ∧ sqDist (place e.1) (place e.2) ≤ r ^ 2) := by
  simp [rggEdges, List.mem_filter, mem_combinations2, withinRadius]

theorem rgg_WF (n : ℕ) (r : ℚ) (place : ℕ → ℚ × ℚ) :
    (random_geometric_graph n r place).WF := by
  constructor
  · exact (nodup_combinations2 n).filter _
  · intro e he
    exact (mem_rggEdges.mp he).1

/-!
## Counting helpers for symmetric pair sets
-/

theorem card_filter_lt_eq_card_filter_gt (s : Finset (ℕ × ℕ))
    (hs : ∀ p ∈ s, Prod.swap p ∈ s) :
    (s.filter fun p => p.1 < p.2).card = (s.filter fun p => p.2 < p.1).card := by
  apply Finset.card_bij (fun p _ => Prod.swap p)
  · intro p hp
    simp only [Finset.mem_filter] at hp ⊢
    exact ⟨hs p hp.1, hp.2⟩
  · intro p hp q hq h
    exact Prod.swap_injective h
  · intro q hq
    simp only [Finset.mem_filter] at hq ⊢
    exact ⟨Prod.swap q, ⟨hs q hq.1, hq.2⟩, Prod.swap_swap q⟩

theorem card_symm_offdiag (s : Finset (ℕ × ℕ)) (hs : ∀ p ∈ s, Prod.swap p ∈ s)
    (hd : ∀ p ∈ s, p.1 ≠ p.2) :
    s.card = 2 * (s.filter fun p => p.1 < p.2).card := by
  have hdisj : Disjoint (s.filter fun p => p.1 < p.2) (s.filter fun p => p.2 < p.1) := by
    rw [Finset.disjoint_left]
    intro p hp hq
    simp only [Finset.mem_filter] at hp hq
    exact absurd (lt_trans hp.2 hq.2) (lt_irrefl _)
  have hsplit : s = (s.filter fun p => p.1 < p.2) ∪ (s.filter fun p => p.2 < p.1) := by
    ext p
    simp only [Finset.mem_union, Finset.mem_filter]
    constructor
    · intro hp
      rcases lt_or_gt_of_ne (hd p hp) with h | h
      · exact Or.inl ⟨hp, h⟩
      · exact Or.inr ⟨hp, h⟩
    · rintro (⟨hp, _⟩ | ⟨hp, _⟩) <;> exact hp
  calc s.card
      = ((s.filter fun p => p.1 < p.2) ∪ (s.filter fun p => p.2 < p.1)).card := by
        rw [← hsplit]
    _ = (s.filter fun p => p.1 < p.2).card + (s.filter fun p => p.2 < p.1).card :=
        Finset.card_union_of_disjoint hdisj
    _ = 2 * (s.filter fun p => p.1 < p.2).card := by
        rw [← card_filter_lt_eq_card_filter_gt s hs]; ring

theorem two_mul_card_ltPairs (s : Finset ℕ) :
    2 * ((s ×ˢ s).filter fun p => p.1 < p.2).card = s.card * (s.card - 1) := by
  have hsymm : ∀ p ∈ s.offDiag, Prod.swap p ∈ s.offDiag := by
    intro p hp
    simp only [Finset.mem_offDiag] at hp ⊢
    exact ⟨hp.2.1, hp.1, fun h => hp.2.2 h.symm⟩
  have hd : ∀ p ∈ s.offDiag, p.1 ≠ p.2 := by
    intro p hp
    exact (Finset.mem_offDiag.mp hp).2.2
  have h := card_symm_offdiag s.offDiag hsymm hd
  have hfil : (s.offDiag.filter fun p => p.1 < p.2) =
      ((s ×ˢ s).filter fun p => p.1 < p.2) := by
    ext p
    simp only [Finset.mem_filter, Finset.mem_offDiag, Finset.mem_product]
    constructor
    · rintro ⟨⟨h1, h2, _⟩, hlt⟩
      exact ⟨⟨h1, h2⟩, hlt⟩
    · rintro ⟨⟨h1, h2⟩, hlt⟩
      exact ⟨⟨h1, h2, Nat.ne_of_lt hlt⟩, hlt⟩
  rw [hfil] at h
  rw [← h, Finset.offDiag_card]
  rcases Nat.eq_zero_or_pos s.card with h0 | h0
  · simp [h0]
  · obtain ⟨k, hk⟩ := Nat.exists_eq_add_of_le h0
    rw [hk]
    have h1 : Nat.succ 0 + k - 1 = k := by omega
    rw [h1]
    have h2 : (Nat.succ 0 + k) * (Nat.succ 0 + k) = (Nat.succ 0 + k) * k + (Nat.succ 0 + k) := by
      ring
    rw [h2, Nat.add_sub_cancel]

theorem two_mul_edgeCount_le (n : ℕ) (r : ℚ) (place : ℕ → ℚ × ℚ) :
    2 * (random_geometric_graph n r place).edgeCount ≤ n * (n - 1) := by
  have hnd := (rgg_WF n r place).1
  have hsub : (random_geometric_graph n r place).edges.toFinset ⊆
      (Finset.range n ×ˢ Finset.range n).filter fun p => p.1 < p.2 := by
    intro e he
    rw [List.mem_toFinset] at he
    have h := (mem_rggEdges.mp he).1
    simp only [Finset.mem_filter, Finset.mem_product, Finset.mem_range]
    exact ⟨⟨lt_trans h.1 h.2, h.2⟩, h.1⟩
  have hcard := Finset.card_le_card hsub
  have hhalf := two_mul_card_ltPairs (Finset.range n)
  rw [Finset.card_range] at hhalf
  have hlen : (random_geometric_graph n r place).edges.toFinset.card =
      (random_geometric_graph n r place).edgeCount :=
    List.toFinset_card_of_nodup hnd
  omega

theorem list_map_range_sum (f : ℕ → ℚ) (n : ℕ) :
    ((List.range n).map f).sum = ∑ i ∈ Finset.range n, f i := by
  induction n with
  | zero => simp
  | succ k ih =>
    rw [List.range_succ, List.map_append, List.sum_append, Finset.sum_range_succ, ih]
    simp

/-!
## Neighbour sets, degrees, and the handshake identity
-/

theorem mem_nbrs {G : Graph} {v u : ℕ} : u ∈ G.nbrs v ↔ G.Adj v u := by
  simp only [Graph.nbrs, List.mem_toFinset, List.mem_append, List.mem_map, List.mem_filter,
    decide_eq_true_eq, Graph.Adj]
  constructor
  · rintro (⟨e, ⟨he, h1⟩, rfl⟩ | ⟨e, ⟨he, h2⟩, rfl⟩)
    · left
      obtain ⟨a, b⟩ := e
      cases h1
      exact he
    · right
      obtain ⟨a, b⟩ := e
      cases h2
      exact he
  · rintro (h | h)
    · exact Or.inl ⟨(v, u), ⟨h, rfl⟩, rfl⟩
    · exact Or.inr ⟨(u, v), ⟨h, rfl⟩, rfl⟩

theorem adj_comm {G : Graph} {u v : ℕ} : G.Adj u v ↔ G.Adj v u := Or.comm

theorem wf_not_adj_self {G : Graph} (h : G.WF) (v : ℕ) : ¬G.Adj v v := by
  rintro (hv | hv) <;> exact absurd (h.2 _ hv).1 (lt_irrefl v)

theorem wf_adj_lt {G : Graph} (h : G.WF) {u v : ℕ} (ha : G.Adj u v) : u < G.n ∧ v < G.n := by
  rcases ha with hv | hv
  · have := h.2 _ hv
    exact ⟨lt_trans this.1 this.2, this.2⟩
  · have := h.2 _ hv
    exact ⟨this.2, lt_trans this.1 this.2⟩

theorem wf_self_not_mem_nbrs {G : Graph} (h : G.WF) (v : ℕ) : v ∉ G.nbrs v := by
  rw [mem_nbrs]
  exact wf_not_adj_self h v

theorem wf_degree_eq_card {G : Graph} (h : G.WF) (v : ℕ) : G.degree v = (G.nbrs v).card := by
  unfold Graph.degree
  rw [if_neg (wf_self_not_mem_nbrs h v)]
  exact Nat.add_zero _

theorem wf_nbrs_eq_filter {G : Graph} (h : G.WF) (v : ℕ) :
    G.nbrs v = (Finset.range G.n).filter fun u => G.Adj v u := by
  ext u
  simp only [mem_nbrs, Finset.mem_filter, Finset.mem_range]
  exact ⟨fun ha => ⟨(wf_adj_lt h ha).2, ha⟩, fun ha => ha.2⟩

theorem sum_degree_eq (G : Graph) (h : G.WF) :
    ∑ v ∈ Finset.range G.n, G.degree v = 2 * G.edgeCount := by
  classical
  set T := (Finset.range G.n ×ˢ Finset.range G.n).filter fun p => G.Adj p.1 p.2 with hT
  have hfib : T.card = ∑ v ∈ Finset.range G.n, (T.filter fun p => p.1 = v).card := by
    apply Finset.card_eq_sum_card_fiberwise
    intro p hp
    rw [hT, Finset.mem_filter] at hp
    exact (Finset.mem_product.mp hp.1).1
  have hdeg : ∀ v ∈ Finset.range G.n, (T.filter fun p => p.1 = v).card = G.degree v := by
    intro v hv
    rw [wf_degree_eq_card h, wf_nbrs_eq_filter h]
    apply Finset.card_bij (fun p _ => p.2)
    · intro p hp
      simp only [hT, Finset.mem_filter, Finset.mem_product, Finset.mem_range] at hp ⊢
      obtain ⟨⟨⟨_, h2⟩, ha⟩, hfst⟩ := hp
      subst hfst
      exact ⟨h2, ha⟩
    · intro p hp q hq hpq
      simp only [hT, Finset.mem_filter] at hp hq
      exact Prod.ext (hp.2.trans hq.2.symm) hpq
    · intro u hu
      simp only [Finset.mem_filter, Finset.mem_range] at hu
      refine ⟨(v, u), ?_, rfl⟩
      simp only [hT, Finset.mem_filter, Finset.mem_product, Finset.mem_range]
      exact ⟨⟨⟨Finset.mem_range.mp hv, hu.1⟩, hu.2⟩, trivial⟩
  have hsymmT : ∀ p ∈ T, Prod.swap p ∈ T := by
    intro p hp
    simp only [hT, Finset.mem_filter, Finset.mem_product, Finset.mem_range] at hp ⊢
    exact ⟨⟨hp.1.2, hp.1.1⟩, adj_comm.mp hp.2⟩
  have hdT : ∀ p ∈ T, p.1 ≠ p.2 := by
    intro p hp he
    rw [hT, Finset.mem_filter] at hp
    exact wf_not_adj_self h p.1 (by rw [he] at hp ⊢; exact hp.2)
  have h2 : T.card = 2 * (T.filter fun p => p.1 < p.2).card := card_symm_offdiag T hsymmT hdT
  have hedges : (T.filter fun p => p.1 < p.2) = G.edges.toFinset := by
    ext e
    simp only [hT, Finset.mem_filter, Finset.mem_product, Finset.mem_range, List.mem_toFinset,
      Graph.Adj]
    constructor
    · rintro ⟨⟨⟨_, _⟩, he | he⟩, hlt⟩
      · exact he
      · have hw := (h.2 _ he).1
        exact absurd hlt (by simp only [Prod.fst, Prod.snd] at hw ⊢; omega)
    · intro he
      have hw := h.2 _ he
      exact ⟨⟨⟨lt_trans hw.1 hw.2, hw.2⟩, Or.inl he⟩, hw.1⟩
  have hlen : G.edges.toFinset.card = G.edgeCount := List.toFinset_card_of_nodup h.1
  rw [← Finset.sum_congr rfl hdeg, ← hfib, h2, hedges, hlen]

theorem averageDegree_eq (G : Graph) (h : G.WF) :
    averageDegree G = 2 * (G.edgeCount : ℚ) / (G.n : ℚ) := by
  unfold averageDegree npMean Graph.nodes
  rw [List.length_map, List.length_range, list_map_range_sum, ← Nat.cast_sum,
    sum_degree_eq G h]
  push_cast
  ring

theorem length_filter_or_split (l : List (ℕ × ℕ)) (v : ℕ)
    (h : ∀ e ∈ l, ¬(e.1 = v ∧ e.2 = v)) :
    (l.filter fun e => e.1 = v ∨ e.2 = v).length =
      (l.filter fun e => e.1 = v).length + (l.filter fun e => e.2 = v).length := by
  induction l with
  | nil => simp
  | cons a t ih =>
    have ht : ∀ e ∈ t, ¬(e.1 = v ∧ e.2 = v) := fun e he => h e (List.mem_cons_of_mem _ he)
    have ha := h a (List.mem_cons.mpr (Or.inl rfl))
    have ih2 := ih ht
    simp only [Bool.decide_or] at ih2 ⊢
    by_cases h1 : a.1 = v
    · by_cases h2 : a.2 = v
      · exact absurd ⟨h1, h2⟩ ha
      · simp [List.filter_cons, h1, h2, ih2]
        omega
    · by_cases h2 : a.2 = v
      · simp [List.filter_cons, h1, h2, ih2]
        omega
      · simp [List.filter_cons, h1, h2, ih2]

theorem wf_adjList_nodup {G : Graph} (h : G.WF) (v : ℕ) :
    (((G.edges.filter fun e => e.1 = v).map Prod.snd) ++
      ((G.edges.filter fun e => e.2 = v).map Prod.fst)).Nodup := by
  rw [List.nodup_append]
  refine ⟨?_, ?_, ?_⟩
  · apply List.Nodup.map_on ?_ (h.1.filter _)
    intro x hx y hy hxy
    rw [List.mem_filter] at hx hy
    have hx1 : x.1 = v := by simpa using hx.2
    have hy1 : y.1 = v := by simpa using hy.2
    exact Prod.ext (hx1.trans hy1.symm) hxy
  · apply List.Nodup.map_on ?_ (h.1.filter _)
    intro x hx y hy hxy
    rw [List.mem_filter] at hx hy
    have hx2 : x.2 = v := by simpa using hx.2
    have hy2 : y.2 = v := by simpa using hy.2
    exact Prod.ext hxy (hx2.trans hy2.symm)
  · intro a ha hb
    simp only [List.mem_map, List.mem_filter, decide_eq_true_eq] at ha hb
    obtain ⟨e, ⟨he, he1⟩, rfl⟩ := ha
    obtain ⟨f, ⟨hf, hf2⟩, hfa⟩ := hb
    have h1 := (h.2 e he).1
    have h2 := (h.2 f hf).1
    rw [he1] at h1
    rw [hf2, hfa] at h2
    exact absurd (lt_trans h1 h2) (lt_irrefl v)

theorem wf_degree_eq_incidentCount {G : Graph} (h : G.WF) (v : ℕ) :
    G.degree v = incidentCount G v := by
  have hx : ∀ e ∈ G.edges, ¬(e.1 = v ∧ e.2 = v) := by
    intro e he ⟨h1, h2⟩
    have := (h.2 e he).1
    rw [h1, h2] at this
    exact lt_irrefl v this
  rw [wf_degree_eq_card h]
  unfold Graph.nbrs incidentCount
  rw [List.toFinset_card_of_nodup (wf_adjList_nodup h v), List.length_append,
    List.length_map, List.length_map, List.countP_eq_length_filter,
    length_filter_or_split G.edges v hx]

/-!
## The clustering coefficient: refinement against the specified definition
-/

theorem wf_triangleData_t {G : Graph} (h : G.WF) (v : ℕ) :
    (G.triangleData v).2 = ∑ w ∈ G.nbrs v, ((G.nbrs v) ∩ (G.nbrs w)).card := by
  simp only [Graph.triangleData]
  rw [Finset.erase_eq_of_not_mem (wf_self_not_mem_nbrs h v)]
  apply Finset.sum_congr rfl
  intro w _
  rw [Finset.erase_eq_of_not_mem (wf_self_not_mem_nbrs h w)]

theorem wf_t_eq_card {G : Graph} (h : G.WF) (v : ℕ) :
    (G.triangleData v).2 =
      (((G.nbrs v) ×ˢ (G.nbrs v)).filter fun p => G.Adj p.1 p.2).card := by
  classical
  rw [wf_triangleData_t h]
  have hfib : (((G.nbrs v) ×ˢ (G.nbrs v)).filter fun p => G.Adj p.1 p.2).card =
      ∑ w ∈ G.nbrs v,
        ((((G.nbrs v) ×ˢ (G.nbrs v)).filter fun p => G.Adj p.1 p.2).filter
          fun p => p.1 = w).card := by
    apply Finset.card_eq_sum_card_fiberwise
    intro p hp
    rw [Finset.mem_filter] at hp
    exact (Finset.mem_product.mp hp.1).1
  rw [hfib]
  apply Finset.sum_congr rfl
  intro w hw
  symm
  apply Finset.card_bij (fun p _ => p.2)
  · intro p hp
    simp only [Finset.mem_filter, Finset.mem_product] at hp
    obtain ⟨⟨⟨_, h2⟩, ha⟩, hw1⟩ := hp
    subst hw1
    rw [Finset.mem_inter]
    exact ⟨h2, mem_nbrs.mpr ha⟩
  · intro p hp q hq hpq
    simp only [Finset.mem_filter] at hp hq
    exact Prod.ext (hp.2.trans hq.2.symm) hpq
  · intro u hu
    rw [Finset.mem_inter] at hu
    refine ⟨(w, u), ?_, rfl⟩
    simp only [Finset.mem_filter, Finset.mem_product]
    exact ⟨⟨⟨hw, hu.1⟩, mem_nbrs.mp hu.2⟩, trivial⟩

theorem wf_t_eq_two_mul {G : Graph} (h : G.WF) (v : ℕ) :
    (G.triangleData v).2 = 2 * ((neighborPairs G v).filter fun p => G.Adj p.1 p.2).card := by
  classical
  rw [wf_t_eq_card h]
  have hsymm : ∀ p ∈ ((G.nbrs v) ×ˢ (G.nbrs v)).filter fun p => G.Adj p.1 p.2,
      Prod.swap p ∈ ((G.nbrs v) ×ˢ (G.nbrs v)).filter fun p => G.Adj p.1 p.2 := by
    intro p hp
    simp only [Finset.mem_filter, Finset.mem_product] at hp ⊢
    exact ⟨⟨hp.1.2, hp.1.1⟩, adj_comm.mp hp.2⟩
  have hd : ∀ p ∈ ((G.nbrs v) ×ˢ (G.nbrs v)).filter fun p => G.Adj p.1 p.2, p.1 ≠ p.2 := by
    intro p hp he
    rw [Finset.mem_filter] at hp
    exact wf_not_adj_self h p.1 (by rw [he] at hp ⊢; exact hp.2)
  rw [card_symm_offdiag _ hsymm hd]
  congr 1
  unfold neighborPairs
  rw [Finset.filter_comm]

theorem wf_localClustering_eq {G : Graph} (h : G.WF) (v : ℕ) :
    localClustering G v = specLocalClustering G v := by
  classical
  have ht : (G.triangleData v).2 = 2 * ((neighborPairs G v).filter fun p => G.Adj p.1 p.2).card :=
    wf_t_eq_two_mul h v
  have hd1 : (G.triangleData v).1 = (G.nbrs v).card := rfl
  have hP : 2 * (neighborPairs G v).card = (G.nbrs v).card * ((G.nbrs v).card - 1) :=
    two_mul_card_ltPairs (G.nbrs v)
  have hCP : ((neighborPairs G v).filter fun p => G.Adj p.1 p.2).card ≤ (neighborPairs G v).card :=
    Finset.card_filter_le _ _
  unfold localClustering specLocalClustering
  rw [ht, hd1]
  set d := (G.nbrs v).card with hdd
  set C := ((neighborPairs G v).filter fun p => G.Adj p.1 p.2).card with hCC
  set P := (neighborPairs G v).card with hPP
  by_cases hd2 : d < 2
  · rw [if_pos hd2]
    have hdd0 : d * (d - 1) = 0 := by
      have : d = 0 ∨ d = 1 := by omega
      rcases this with h0 | h0 <;> rw [h0]
    have hP0 : P = 0 := by omega
    have hC0 : C = 0 := by omega
    simp [hC0]
  · rw [if_neg hd2]
    have h1d : 1 ≤ d := by omega
    have hden : ((d : ℚ)) * ((d : ℚ) - 1) = 2 * (P : ℚ) := by
      have : ((d * (d - 1) : ℕ) : ℚ) = (d : ℚ) * ((d : ℚ) - 1) := by
        rw [Nat.cast_mul, Nat.cast_sub h1d, Nat.cast_one]
      rw [← this, ← hP]
      push_cast
      ring
    by_cases hC0 : C = 0
    · simp [hC0]
    · rw [if_neg (by omega : ¬2 * C = 0)]
      rw [hden]
      push_cast
      rw [mul_div_mul_left _ _ (two_ne_zero)]

theorem wf_average_clustering_eq {G : Graph} (h : G.WF) :
    average_clustering G = npMean (G.nodes.map fun v => specLocalClustering G v) := by
  unfold average_clustering
  congr 1
  exact List.map_congr_left fun v _ => wf_localClustering_eq h v

theorem specLocalClustering_bounds (G : Graph) (v : ℕ) :
    0 ≤ specLocalClustering G v ∧ specLocalClustering G v ≤ 1 := by
  unfold specLocalClustering
  by_cases hd2 : (G.nbrs v).card < 2
  · rw [if_pos hd2]
    exact ⟨le_refl 0, by norm_num⟩
  · rw [if_neg hd2]
    have hCP : ((neighborPairs G v).filter fun p => G.Adj p.1 p.2).card ≤
        (neighborPairs G v).card := Finset.card_filter_le _ _
    constructor
    · apply div_nonneg <;> positivity
    · rcases Nat.eq_zero_or_pos (neighborPairs G v).card with h0 | h0
      · have : ((neighborPairs G v).filter fun p => G.Adj p.1 p.2).card = 0 := by omega
        rw [this, h0]
        norm_num
      · rw [div_le_one (by exact_mod_cast h0)]
        exact_mod_cast hCP

theorem npMean_map_range_bounds (f : ℕ → ℚ) (n : ℕ) (hn : 1 ≤ n)
    (hf : ∀ v, 0 ≤ f v ∧ f v ≤ 1) :
    0 ≤ npMean ((List.range n).map f) ∧ npMean ((List.range n).map f) ≤ 1 := by
  unfold npMean
  rw [List.length_map, List.length_range, list_map_range_sum]
  have hpos : (0 : ℚ) < n := by exact_mod_cast hn
  have hsum0 : 0 ≤ ∑ i ∈ Finset.range n, f i := Finset.sum_nonneg fun i _ => (hf i).1
  have hsum1 : ∑ i ∈ Finset.range n, f i ≤ n := by
    calc ∑ i ∈ Finset.range n, f i
        ≤ (Finset.range n).card • (1 : ℚ) :=
          Finset.sum_le_card_nsmul _ _ _ fun x _ => (hf x).2
      _ = n := by simp
  exact ⟨div_nonneg hsum0 hpos.le, (div_le_one hpos).mpr hsum1⟩

/-!
## Scene construction lemmas
-/

theorem buildEdgeBuffers_ok {α : Type} (pos : ℕ → Option (α × α × α)) (p : ℕ → α × α × α)
    (es : List (ℕ × ℕ)) (h : ∀ e ∈ es, pos e.1 = some (p e.1) ∧ pos e.2 = some (p e.2)) :
    buildEdgeBuffers pos es =
      .ok (es.flatMap fun e => [some (p e.1).1, some (p e.2).1, none],
           es.flatMap fun e => [some (p e.1).2.1, some (p e.2).2.1, none],
           es.flatMap fun e => [some (p e.1).2.2, some (p e.2).2.2, none]) := by
  induction es with
  | nil => rfl
  | cons e rest ih =>
    have he := h e (List.mem_cons.mpr (Or.inl rfl))
    have ht : ∀ f ∈ rest, pos f.1 = some (p f.1) ∧ pos f.2 = some (p f.2) :=
      fun f hf => h f (List.mem_cons_of_mem _ hf)
    rcases hA : p e.1 with ⟨x0, y0, z0⟩
    rcases hB : p e.2 with ⟨x1, y1, z1⟩
    have he1 := he.1
    have he2 := he.2
    rw [hA] at he1
    rw [hB] at he2
    simp only [buildEdgeBuffers, he1, he2, ih ht, hA, hB, List.flatMap_cons,
      List.cons_append, List.nil_append]

theorem buildNodeBuffers_ok {α : Type} (pos : ℕ → Option (α × α × α)) (p : ℕ → α × α × α)
    (vs : List ℕ) (h : ∀ v ∈ vs, pos v = some (p v)) :
    buildNodeBuffers pos vs =
      .ok (vs.map fun v => (p v).1, vs.map fun v => (p v).2.1, vs.map fun v => (p v).2.2) := by
  induction vs with
  | nil => rfl
  | cons u rest ih =>
    have hu := h u (List.mem_cons.mpr (Or.inl rfl))
    have ht : ∀ v ∈ rest, pos v = some (p v) := fun v hv => h v (List.mem_cons_of_mem _ hv)
    rcases hA : p u with ⟨x, y, z⟩
    rw [hA] at hu
    simp only [buildNodeBuffers, hu, ih ht, hA, List.map_cons, List.cons_append,
      List.nil_append]

theorem buildEdgeBuffers_ok_or_incomplete {α : Type} (pos : ℕ → Option (α × α × α))
    (es : List (ℕ × ℕ)) :
    (∃ t, buildEdgeBuffers pos es = .ok t) ∨
      buildEdgeBuffers pos es = .error PipelineError.incompleteLayout := by
  induction es with
  | nil => exact Or.inl ⟨_, rfl⟩
  | cons e rest ih =>
    rcases h1 : pos e.1 with _ | p0
    · right
      simp [buildEdgeBuffers, h1]
    · obtain ⟨x0, y0, z0⟩ := p0
      rcases h2 : pos e.2 with _ | p1
      · right
        simp [buildEdgeBuffers, h1, h2]
      · obtain ⟨x1, y1, z1⟩ := p1
        rcases ih with ⟨t, ht⟩ | ht
        · obtain ⟨tx, ty, tz⟩ := t
          left
          refine ⟨(some x0 :: some x1 :: none :: tx, some y0 :: some y1 :: none :: ty,
            some z0 :: some z1 :: none :: tz), ?_⟩
          simp [buildEdgeBuffers, h1, h2, ht]
        · right
          simp [buildEdgeBuffers, h1, h2, ht]

theorem buildNodeBuffers_error_of_missing {α : Type} (pos : ℕ → Option (α × α × α))
    (vs : List ℕ) (v : ℕ) (hv : v ∈ vs) (hnone : pos v = none) :
    buildNodeBuffers pos vs = .error PipelineError.incompleteLayout := by
  induction vs with
  | nil => cases hv
  | cons u rest ih =>
    rcases List.mem_cons.mp hv with rfl | hv2
    · simp [buildNodeBuffers, hnone]
    · rcases h1 : pos u with _ | p0
      · simp [buildNodeBuffers, h1]
      · obtain ⟨x, y, z⟩ := p0
        simp [buildNodeBuffers, h1, ih hv2]

theorem create_3d_graph_ok {α : Type} (G : Graph) (pos : ℕ → Option (α × α × α))
    (p : ℕ → α × α × α) (hWF : G.WF) (hcov : ∀ v, v < G.n → pos v = some (p v)) :
    create_3d_graph G pos =
      .ok ⟨G.edges.flatMap fun e => [some (p e.1).1, some (p e.2).1, none],
           G.edges.flatMap fun e => [some (p e.1).2.1, some (p e.2).2.1, none],
           G.edges.flatMap fun e => [some (p e.1).2.2, some (p e.2).2.2, none],
           G.nodes.map fun v => (p v).1,
           G.nodes.map fun v => (p v).2.1,
           G.nodes.map fun v => (p v).2.2⟩ := by
  have hedge : ∀ e ∈ G.edges, pos e.1 = some (p e.1) ∧ pos e.2 = some (p e.2) := by
    intro e he
    have hw := hWF.2 e he
    exact ⟨hcov _ (lt_trans hw.1 hw.2), hcov _ hw.2⟩
  have hnode : ∀ v ∈ G.nodes, pos v = some (p v) := by
    intro v hv
    exact hcov v (List.mem_range.mp hv)
  unfold create_3d_graph
  rw [buildEdgeBuffers_ok pos p _ hedge, buildNodeBuffers_ok pos p _ hnode]

theorem create_3d_graph_error_of_missing {α : Type} (G : Graph) (pos : ℕ → Option (α × α × α))
    (v : ℕ) (hv : v < G.n) (hnone : pos v = none) :
    create_3d_graph G pos = .error PipelineError.incompleteLayout := by
  unfold create_3d_graph
  rcases buildEdgeBuffers_ok_or_incomplete pos G.edges with ⟨t, ht⟩ | ht
  · obtain ⟨tx, ty, tz⟩ := t
    rw [ht, buildNodeBuffers_error_of_missing pos G.nodes v (List.mem_range.mpr hv) hnone]
  · rw [ht]

theorem polylineRuns_cons3 {α : Type} (a b : α) (L : List (Option α)) :
    polylineRuns (some a :: some b :: none :: L) = [a, b] :: polylineRuns L := by
  simp [polylineRuns]

theorem polylineRuns_flatMap {α β : Type} (f g : β → α) (es : List β) :
    polylineRuns (es.flatMap fun e => [some (f e), some (g e), none]) =
      es.map fun e => [f e, g e] := by
  induction es with
  | nil => rfl
  | cons e rest ih =>
    simp [List.flatMap_cons, polylineRuns_cons3, ih]

/-!
## Layout lemmas
-/

theorem spring_layout_isSome_iff (G : Graph) (init : ℕ → ℝ × ℝ × ℝ) (v : ℕ) :
    (spring_layout G init v).isSome = true ↔ v < G.n := by
  unfold spring_layout
  by_cases h0 : G.n = 0
  · rw [if_pos h0]
    simp [h0]
  · rw [if_neg h0]
    by_cases h1 : G.n = 1
    · rw [if_pos h1]
      by_cases hv : v = 0
      · simp [hv, h1]
      · simp only [if_neg hv, Option.isSome_none, h1]
        constructor
        · intro h
          cases h
        · intro h
          omega
    · rw [if_neg h1]
      by_cases hv : v < G.n
      · simp [hv]
      · simp [hv]

theorem clippedDist_ge (p : ℕ → ℝ × ℝ × ℝ) (i j : ℕ) : (1 : ℝ) / 100 ≤ clippedDist p i j := by
  unfold clippedDist
  calc (1 : ℝ) / 100 = 0.01 := by norm_num
    _ ≤ max (norm3 (sub3 (p i) (p j))) 0.01 := le_max_right _ _

theorem whereLength_ge (l : ℝ) : (1 : ℝ) / 100 ≤ whereLength l := by
  unfold whereLength
  by_cases h : l < 0.01
  · rw [if_pos h]
    norm_num
  · rw [if_neg h]
    push_neg at h
    linarith

theorem frK_pos (n : ℕ) (hn : 1 ≤ n) : 0 < frK n := by
  unfold frK
  apply Real.sqrt_pos.mpr
  have hpos : (0 : ℝ) < n := by exact_mod_cast hn
  positivity

/-!
## Claim theorems
-/

/-- C1: for every nodeCount `N ≥ 1` and every connectivity in `[0, 1]`, the
graph returned by the generator has exactly `N` nodes and is simple and
undirected: no edge is a self-loop, no edge is stored twice, and no edge is
also stored in reversed orientation. -/
theorem claim_c1 (n : ℕ) (r : ℚ) (place : ℕ → ℚ × ℚ)
    (hn : 1 ≤ n) (hr0 : 0 ≤ r) (hr1 : r ≤ 1) :
    (random_geometric_graph n r place).n = n ∧
    (random_geometric_graph n r place).nodes.length = n ∧
    (∀ e ∈ (random_geometric_graph n r place).edges, e.1 ≠ e.2) ∧
    (random_geometric_graph n r place).edges.Nodup ∧
    (∀ e ∈ (random_geometric_graph n r place).edges,
      (e.2, e.1) ∉ (random_geometric_graph n r place).edges) := by
  refine ⟨rfl, by simp [Graph.nodes, random_geometric_graph], ?_, (rgg_WF n r place).1, ?_⟩
  · intro e he
    exact Nat.ne_of_lt (mem_rggEdges.mp he).1.1
  · intro e he hrev
    have h1 := (mem_rggEdges.mp he).1.1
    have h2 := (mem_rggEdges.mp hrev).1.1
    exact absurd (lt_trans h1 h2) (lt_irrefl _)

theorem claim_c1_witness :
    (random_geometric_graph 3 (1/2) place0).n = 3 ∧
    (random_geometric_graph 3 (1/2) place0).nodes.length = 3 ∧
    (random_geometric_graph 3 (1/2) place0).edges.Nodup :=
  ⟨(claim_c1 3 (1/2) place0 (by norm_num) (by norm_num) (by norm_num)).1,
   (claim_c1 3 (1/2) place0 (by norm_num) (by norm_num) (by norm_num)).2.1,
   (claim_c1 3 (1/2) place0 (by norm_num) (by norm_num) (by norm_num)).2.2.2.1⟩

/-- C2 counterexample: called with the non-positive nodeCount `0`, the
pipeline boundary does not signal `InvalidParameter` — it succeeds and
returns an empty graph (the claim, as stated, is false on the code). -/
theorem claim_c2_counterexample :
    generate_sample_graphE 0 (1/2) place0 init0 ≠
      Except.error PipelineError.invalidParameter ∧
    generate_sample_graphE 0 (1/2) place0 init0 =
      Except.ok (generate_sample_graph 0 (1/2) place0 init0) ∧
    (generate_sample_graph 0 (1/2) place0 init0).1.n = 0 := by
  refine ⟨?_, rfl, rfl⟩
  intro h
  exact Except.noConfusion h

/-- C2 amended: `generate_sample_graph` performs no input validation and has
no failure mode at all: for every integer nodeCount (including non-positive
ones) and every connectivity (including values outside `[0, 1]`) it returns a
result, and a non-positive nodeCount yields the graph with zero nodes rather
than an error. -/
theorem claim_c2_amended (n : ℤ) (c : ℚ) (place : ℕ → ℚ × ℚ) (init : ℕ → ℝ × ℝ × ℝ) :
    generate_sample_graphE n c place init = .ok (generate_sample_graph n c place init) ∧
    (n ≤ 0 → (generate_sample_graph n c place init).1.n = 0) := by
  refine ⟨rfl, fun hn => ?_⟩
  simp only [generate_sample_graph, random_geometric_graph]
  exact Int.toNat_eq_zero.mpr hn

theorem claim_c2_amended_witness :
    (generate_sample_graph (-5) (1/2) place0 init0).1.n = 0 :=
  (claim_c2_amended (-5) (1/2) place0 init0).2 (by norm_num)

/-- C3: for every (well-formed) graph and every position map that misses at
least one node, the scene builder fails with the `IncompleteLayout` error (the
`KeyError` of the Python source); for every position map defined on all nodes
it succeeds.  It is a pure deterministic function of `(G, pos)` by
construction: unlike the generator and the layout, `create_3d_graph` takes no
random-source argument. -/
theorem claim_c3 {α : Type} (G : Graph) (pos : ℕ → Option (α × α × α)) (hWF : G.WF) :
    ((∃ v, v < G.n ∧ pos v = none) →
      create_3d_graph G pos = .error PipelineError.incompleteLayout) ∧
    ((∀ v, v < G.n → (pos v).isSome) → ∃ s, create_3d_graph G pos = .ok s) := by
  constructor
  · rintro ⟨v, hv, hnone⟩
    exact create_3d_graph_error_of_missing G pos v hv hnone
  · intro hcov
    by_cases h0 : G.n = 0
    · have hedges : G.edges = [] := by
        rw [List.eq_nil_iff_forall_not_mem]
        intro e he
        have := (hWF.2 e he).2
        omega
      have hnodes : G.nodes = [] := by
        simp [Graph.nodes, h0]
      refine ⟨⟨[], [], [], [], [], []⟩, ?_⟩
      unfold create_3d_graph
      rw [hedges, hnodes]
      rfl
    · have h1 : 0 < G.n := Nat.pos_of_ne_zero h0
      obtain ⟨d, hd⟩ := Option.isSome_iff_exists.mp (hcov 0 h1)
      refine ⟨_, create_3d_graph_ok G pos (fun v => (pos v).getD d) hWF ?_⟩
      intro v hv
      obtain ⟨x, hx⟩ := Option.isSome_iff_exists.mp (hcov v hv)
      simp [hx]

theorem claim_c3_witness :
    create_3d_graph (Graph.mk 1 []) (fun _ => (none : Option (ℚ × ℚ × ℚ))) =
      .error PipelineError.incompleteLayout ∧
    (create_3d_graph (Graph.mk 1 []) (fun _ => some ((0 : ℚ), (0 : ℚ), (0 : ℚ)))).isOk = true := by
  constructor
  · exact (claim_c3 (Graph.mk 1 []) (fun _ => none) (by decide)).1 ⟨0, by decide, rfl⟩
  · obtain ⟨s, hs⟩ := (claim_c3 (Graph.mk 1 [])
      (fun _ => some ((0 : ℚ), (0 : ℚ), (0 : ℚ))) (by decide)).2 (fun v _ => rfl)
    rw [hs]
    rfl

/-- C4: for every graph produced by the pipeline generator, the Graph Density
metric equals `2·edgeCount / (nodeCount·(nodeCount−1))` when `nodeCount ≥ 2`,
equals `0` when `nodeCount < 2`, always lies in `[0, 1]`, and is `0` whenever
the graph has no edges. -/
theorem claim_c4 (n : ℕ) (r : ℚ) (place : ℕ → ℚ × ℚ) :
    (2 ≤ n → density (random_geometric_graph n r place) =
      2 * ((random_geometric_graph n r place).edgeCount : ℚ) / ((n : ℚ) * ((n : ℚ) - 1))) ∧
    (n < 2 → density (random_geometric_graph n r place) = 0) ∧
    0 ≤ density (random_geometric_graph n r place) ∧
    density (random_geometric_graph n r place) ≤ 1 ∧
    ((random_geometric_graph n r place).edgeCount = 0 →
      density (random_geometric_graph n r place) = 0) := by
  have hb := two_mul_edgeCount_le n r place
  have hnn : (random_geometric_graph n r place).n = n := rfl
  set m := (random_geometric_graph n r place).edgeCount with hm
  refine ⟨?_, ?_, ?_, ?_, ?_⟩
  · intro h2
    unfold density
    rw [hnn, ← hm]
    by_cases hm0 : m = 0
    · rw [if_pos (Or.inl hm0), hm0]
      norm_num
    · rw [if_neg (by omega : ¬(m = 0 ∨ n ≤ 1)), mul_div_assoc]
  · intro h2
    unfold density
    rw [hnn, ← hm, if_pos (Or.inr (by omega))]
  · unfold density
    rw [hnn, ← hm]
    by_cases hcond : m = 0 ∨ n ≤ 1
    · rw [if_pos hcond]
    · rw [if_neg hcond]
      push_neg at hcond
      have h1 : (1 : ℚ) < (n : ℚ) := by exact_mod_cast (by omega : 1 < n)
      have hden : (0 : ℚ) < (n : ℚ) * ((n : ℚ) - 1) := by nlinarith
      positivity
  · unfold density
    rw [hnn, ← hm]
    by_cases hcond : m = 0 ∨ n ≤ 1
    · rw [if_pos hcond]
      norm_num
    · rw [if_neg hcond]
      push_neg at hcond
      have hn2 : 2 ≤ n := by omega
      have h1 : (1 : ℚ) < (n : ℚ) := by exact_mod_cast (by omega : 1 < n)
      have hden : (0 : ℚ) < (n : ℚ) * ((n : ℚ) - 1) := by nlinarith
      rw [← mul_div_assoc, div_le_one hden]
      have hcast : ((n : ℚ)) * ((n : ℚ) - 1) = ((n * (n - 1) : ℕ) : ℚ) := by
        rw [Nat.cast_mul, Nat.cast_sub (by omega : 1 ≤ n), Nat.cast_one]
      rw [hcast]
      exact_mod_cast hb
  · intro hm0
    unfold density
    rw [← hm, if_pos (Or.inl hm0)]

theorem claim_c4_witness :
    density (random_geometric_graph 2 1 place0) =
      2 * ((random_geometric_graph 2 1 place0).edgeCount : ℚ) / ((2 : ℚ) * ((2 : ℚ) - 1)) ∧
    0 ≤ density (random_geometric_graph 2 1 place0) ∧
    density (random_geometric_graph 2 1 place0) ≤ 1 := by
  refine ⟨?_, (claim_c4 2 1 place0).2.2.1, (claim_c4 2 1 place0).2.2.2.1⟩
  have h := (claim_c4 2 1 place0).1 (by norm_num)
  exact_mod_cast h

/-- C5: for every (well-formed) graph with `nodeCount ≥ 1`, the Average Degree
metric equals the sum of all node degrees divided by the node count, the
degree of each node equals the number of edges incident to it, and the value
equals `2·edgeCount / nodeCount`. -/
theorem claim_c5 (G : Graph) (hWF : G.WF) (hn : 1 ≤ G.n) :
    averageDegree G = (∑ v ∈ Finset.range G.n, (G.degree v : ℚ)) / (G.n : ℚ) ∧
    (∀ v, G.degree v = incidentCount G v) ∧
    averageDegree G = 2 * (G.edgeCount : ℚ) / (G.n : ℚ) := by
  refine ⟨?_, fun v => wf_degree_eq_incidentCount hWF v, averageDegree_eq G hWF⟩
  unfold averageDegree npMean Graph.nodes
  rw [List.length_map, List.length_range, list_map_range_sum]

theorem claim_c5_witness :
    averageDegree (Graph.mk 2 [(0, 1)]) =
      2 * ((Graph.mk 2 [(0, 1)]).edgeCount : ℚ) / ((Graph.mk 2 [(0, 1)]).n : ℚ) ∧
    (Graph.mk 2 [(0, 1)]).degree 0 = incidentCount (Graph.mk 2 [(0, 1)]) 0 :=
  ⟨(claim_c5 (Graph.mk 2 [(0, 1)]) (by decide) (by norm_num)).2.2,
   (claim_c5 (Graph.mk 2 [(0, 1)]) (by decide) (by norm_num)).2.1 0⟩

/-- C6: for every (well-formed) graph with `nodeCount ≥ 1`, the Average
Clustering metric equals the mean over all nodes of the local clustering
coefficient in the sense of the specification (the fraction of each node's
neighbour pairs that are themselves connected, a node of degree < 2
contributing 0), and the result lies in `[0, 1]`. -/
theorem claim_c6 (G : Graph) (hWF : G.WF) (hn : 1 ≤ G.n) :
    average_clustering G = npMean (G.nodes.map fun v => specLocalClustering G v) ∧
    (∀ v, (G.nbrs v).card < 2 → specLocalClustering G v = 0) ∧
    0 ≤ average_clustering G ∧ average_clustering G ≤ 1 := by
  have heq := wf_average_clustering_eq hWF
  have hb := npMean_map_range_bounds (fun v => specLocalClustering G v) G.n hn
    (fun v => specLocalClustering_bounds G v)
  refine ⟨heq, fun v hv => by unfold specLocalClustering; rw [if_pos hv], ?_, ?_⟩
  · rw [heq]
    exact hb.1
  · rw [heq]
    exact hb.2

theorem claim_c6_witness :
    0 ≤ average_clustering (Graph.mk 2 [(0, 1)]) ∧
    average_clustering (Graph.mk 2 [(0, 1)]) ≤ 1 ∧
    specLocalClustering (Graph.mk 2 [(0, 1)]) 0 = 0 :=
  ⟨(claim_c6 (Graph.mk 2 [(0, 1)]) (by decide) (by norm_num)).2.2.1,
   (claim_c6 (Graph.mk 2 [(0, 1)]) (by decide) (by norm_num)).2.2.2,
   (claim_c6 (Graph.mk 2 [(0, 1)]) (by decide) (by norm_num)).2.1 0 (by decide)⟩

/-- C7: for every graph produced by the generator, the spring layout returns a
position for exactly the nodes of the graph (a 3-tuple of real coordinates for
every `v < n`, nothing for any other id — so isolated nodes are covered too),
and every divisor formed during the Fruchterman-Reingold iteration is bounded
away from zero: the clipped pairwise distance and the step-normalisation
length are at least `1/100`, and the optimal distance `k` is positive — over
the reals this is what rules out the NaN / non-finite coordinates the claim
speaks about, since no division by zero (and no overflow) can occur. -/
theorem claim_c7 (n v i j : ℕ) (r : ℚ) (place : ℕ → ℚ × ℚ)
    (init q : ℕ → ℝ × ℝ × ℝ) (l : ℝ) (hn : 1 ≤ n) :
    ((spring_layout (random_geometric_graph n r place) init v).isSome = true ↔ v < n) ∧
    (1 / 100 : ℝ) ≤ clippedDist q i j ∧
    (1 / 100 : ℝ) ≤ whereLength l ∧
    0 < frK n :=
  ⟨spring_layout_isSome_iff (random_geometric_graph n r place) init v,
   clippedDist_ge q i j, whereLength_ge l, frK_pos n hn⟩

theorem claim_c7_witness :
    (spring_layout (random_geometric_graph 1 0 place0) init0 0).isSome = true :=
  ((claim_c7 1 0 0 0 0 place0 init0 init0 0 (by norm_num)).1).mpr (by norm_num)

/-- C8: for every (well-formed) graph and every position map covering all its
nodes, the scene builder succeeds and its flattened edge buffers split at the
`None` break markers into exactly `edgeCount` polylines — each consisting of
the two endpoint coordinates of the corresponding edge, so polylines never
connect to one another — while the node trace holds exactly `nodeCount`
markers, one at each node's position. -/
theorem claim_c8 {α : Type} (G : Graph) (pos : ℕ → Option (α × α × α)) (p : ℕ → α × α × α)
    (hWF : G.WF) (hcov : ∀ v, v < G.n → pos v = some (p v)) :
    ∃ s, create_3d_graph G pos = .ok s ∧
      polylineRuns s.edge_x = G.edges.map (fun e => [(p e.1).1, (p e.2).1]) ∧
      polylineRuns s.edge_y = G.edges.map (fun e => [(p e.1).2.1, (p e.2).2.1]) ∧
      polylineRuns s.edge_z = G.edges.map (fun e => [(p e.1).2.2, (p e.2).2.2]) ∧
      (polylineRuns s.edge_x).length = G.edgeCount ∧
      s.node_x = G.nodes.map (fun v => (p v).1) ∧
      s.node_y = G.nodes.map (fun v => (p v).2.1) ∧
      s.node_z = G.nodes.map (fun v => (p v).2.2) ∧
      s.node_x.length = G.n := by
  refine ⟨_, create_3d_graph_ok G pos p hWF hcov, ?_, ?_, ?_, ?_, rfl, rfl, rfl, ?_⟩
  · exact polylineRuns_flatMap (fun e => (p e.1).1) (fun e => (p e.2).1) G.edges
  · exact polylineRuns_flatMap (fun e => (p e.1).2.1) (fun e => (p e.2).2.1) G.edges
  · exact polylineRuns_flatMap (fun e => (p e.1).2.2) (fun e => (p e.2).2.2) G.edges
  · rw [polylineRuns_flatMap (fun e => (p e.1).1) (fun e => (p e.2).1) G.edges,
      List.length_map]
    rfl
  · simp [Graph.nodes]

theorem claim_c8_witness :
    (create_3d_graph (Graph.mk 2 [(0, 1)])
      (fun _ => some ((0 : ℚ), (0 : ℚ), (0 : ℚ)))).isOk = true := by
  obtain ⟨s, hs, _⟩ := claim_c8 (Graph.mk 2 [(0, 1)])
    (fun _ => some ((0 : ℚ), (0 : ℚ), (0 : ℚ))) (fun _ => ((0 : ℚ), (0 : ℚ), (0 : ℚ)))
    (by decide) (fun v _ => rfl)
  rw [hs]
  rfl

/-- C9 counterexample: the claim "connectivity = 0 yields a graph with 0
edges for every N ≥ 1" is false as stated: if two placement points coincide
(distance 0 ≤ radius 0), the generator joins them.  With both points of a
2-node graph at the origin the generated graph has an edge. -/
theorem claim_c9_counterexample :
    (random_geometric_graph 2 0 place0).edgeCount ≠ 0 := by
  have hmem : ((0, 1) : ℕ × ℕ) ∈ (random_geometric_graph 2 0 place0).edges := by
    apply mem_rggEdges.mpr
    refine ⟨⟨by norm_num, by norm_num⟩, le_refl 0, ?_⟩
    simp [sqDist, place0]
  intro h
  unfold Graph.edgeCount at h
  rw [List.length_eq_zero] at h
  rw [h] at hmem
  cases hmem

/-- C9 amended: with connectivity 0 the generated graph has 0 edges provided
the placement points of distinct nodes are pairwise distinct (which is the
almost-sure case for the random placement; coincident points are the sole
exception, as the counterexample shows). -/
theorem claim_c9_amended (n : ℕ) (place : ℕ → ℚ × ℚ) (hn : 1 ≤ n)
    (hdist : ∀ i j, i < j → j < n → place i ≠ place j) :
    (random_geometric_graph n 0 place).edgeCount = 0 := by
  have hnil : rggEdges n 0 place = [] := by
    unfold rggEdges
    rw [List.filter_eq_nil_iff]
    intro e he
    obtain ⟨hij, hjn⟩ := mem_combinations2.mp he
    simp only [withinRadius, decide_eq_true_eq, not_and]
    intro _
    unfold sqDist
    intro hle
    have h1 : ((place e.1).1 - (place e.2).1) ^ 2 = 0 ∧
        ((place e.1).2 - (place e.2).2) ^ 2 = 0 := by
      constructor <;> nlinarith [sq_nonneg ((place e.1).1 - (place e.2).1),
        sq_nonneg ((place e.1).2 - (place e.2).2)]
    have hx : (place e.1).1 = (place e.2).1 := by nlinarith [h1.1]
    have hy : (place e.1).2 = (place e.2).2 := by nlinarith [h1.2]
    exact hdist e.1 e.2 hij hjn (Prod.ext hx hy)
  simp [Graph.edgeCount, random_geometric_graph, hnil]

theorem claim_c9_amended_witness :
    (random_geometric_graph 3 0 placeDistinct).edgeCount = 0 :=
  claim_c9_amended 3 placeDistinct (by norm_num)
    (fun i j hij hjn => by
      simp only [placeDistinct, ne_eq, Prod.mk.injEq]
      intro ⟨h, _⟩
      have : i = j := by exact_mod_cast h
      omega)

/-- C10: for every nodeCount `N ≥ 1` and every connectivity `r ≥ √2` (stated
over ℚ as `r ≥ 0 ∧ r² ≥ 2`), as long as the placement points lie in the unit
square (as the library's uniform placement guarantees), the generator returns
the complete graph: its edge list is the full pair enumeration, and every pair
of distinct nodes is adjacent. -/
theorem claim_c10 (n : ℕ) (r : ℚ) (place : ℕ → ℚ × ℚ) (hn : 1 ≤ n)
    (hr0 : 0 ≤ r) (hr2 : 2 ≤ r ^ 2)
    (hsq : ∀ i, i < n → 0 ≤ (place i).1 ∧ (place i).1 ≤ 1 ∧
      0 ≤ (place i).2 ∧ (place i).2 ≤ 1) :
    (random_geometric_graph n r place).edges = combinations2 n ∧
    (∀ i j, i < j → j < n → (random_geometric_graph n r place).Adj i j) := by
  have hfull : rggEdges n r place = combinations2 n := by
    unfold rggEdges
    rw [List.filter_eq_self]
    intro e he
    obtain ⟨hij, hjn⟩ := mem_combinations2.mp he
    have h1 := hsq e.1 (lt_trans hij hjn)
    have h2 := hsq e.2 hjn
    simp only [withinRadius, decide_eq_true_eq]
    refine ⟨hr0, ?_⟩
    unfold sqDist
    have hxsq : ((place e.1).1 - (place e.2).1) ^ 2 ≤ 1 := by nlinarith
    have hysq : ((place e.1).2 - (place e.2).2) ^ 2 ≤ 1 := by nlinarith
    linarith
  constructor
  · exact hfull
  · intro i j hij hjn
    left
    show (i, j) ∈ rggEdges n r place
    rw [hfull]
    exact mem_combinations2.mpr ⟨hij, hjn⟩

theorem claim_c10_witness :
    (random_geometric_graph 2 2 place0).edges = combinations2 2 ∧
    (random_geometric_graph 2 2 place0).Adj 0 1 :=
  ⟨(claim_c10 2 2 place0 (by norm_num) (by norm_num) (by norm_num)
      (fun i _ => by simp [place0])).1,
   (claim_c10 2 2 place0 (by norm_num) (by norm_num) (by norm_num)
      (fun i _ => by simp [place0])).2 0 1 (by norm_num) (by norm_num)⟩
